import Mathlib

/-!
Shallow embedding of the fc-optimizer core pipeline
(`src/services/api.ts` and the aggregation/filter memos of `src/App.tsx`):
fetch-with-retry, player normalization, aggregation, filtering, and the
SBC ranking pipeline with its 5-minute cache.

JS numbers that only ever hold integers are modelled as `ℤ` (ratings,
challenge counts, timestamps) or `ℕ` (ids, copy counts); the Wilson-score
arithmetic of the ranking pipeline is modelled over `ℝ`.  JS `Map`s are
modelled as insertion-ordered association lists, matching the
insertion-order iteration the code relies on.  `undefined`-able fields are
`Option`s, and JS truthiness tests (`x || y`) on strings are modelled
explicitly as emptiness tests.
-/

set_option autoImplicit false

namespace FCOptimizer

/-- Source category of an owned item: the `type` tag
`'Transfer' | 'Storage' | 'Duplicated'` attached in `processPlayers`. -/
inductive Category where
  | Transfer
  | Storage
  | Duplicated
deriving DecidableEq

instance : Fintype Category :=
  ⟨⟨{Category.Transfer, Category.Storage, Category.Duplicated}, by decide⟩,
    fun c => by cases c <;> decide⟩

/-- `EntityInfo` from `api.ts`: display name plus optional image URL. -/
structure EntityInfo where
  name : String
  imgUrl : Option String
deriving DecidableEq

/-- Modelled from the spec: the repository's `src/types/player.ts` is not
under `src/`, so `RawPlayerData` (a catalog entry of `players.json`) is
reconstructed from the spec's RawCatalogEntry: "identity (integer id),
given/family name, optional common/display name".  Field names `f`, `l`,
`c` follow the code's accesses `player.f`, `player.l`, `player.c`. -/
structure RawPlayerData where
  id : ℕ
  f : String
  l : String
  c : Option String
deriving DecidableEq

/-- Modelled from the spec: the item shape consumed by `processPlayers`
(`src/types/player.ts` is not under `src/`).  Fields follow the code's
accesses: `assetId`, `rating`, `possiblePositions` (optional: the code
reads it with `?.`), `nation`, `leagueId`, `teamid`. -/
structure ItemData where
  assetId : ℕ
  rating : ℤ
  possiblePositions : Option (List String)
  nation : ℕ
  leagueId : ℕ
  teamid : ℕ
deriving DecidableEq

/-- One entry of `TradePileResponse.auctionInfo`. -/
structure TradePileAuction where
  itemData : ItemData
deriving DecidableEq

/-- `TradePileResponse`: the code guards `if (tradePile.auctionInfo)`,
so the array is optional. -/
structure TradePileResponse where
  auctionInfo : Option (List TradePileAuction)
deriving DecidableEq

/-- `StorageResponse`: the code guards `if (storage.itemData)`. -/
structure StorageResponse where
  itemData : Option (List ItemData)
deriving DecidableEq

/-- `DuplicatedResponse`: the code guards `if (duplicated.itemData)`. -/
structure DuplicatedResponse where
  itemData : Option (List ItemData)
deriving DecidableEq

/-- `CachedData` from `api.ts`: the static reference maps.  JS `Map.get`
is modelled as a function into `Option`. -/
structure StaticData where
  players : ℕ → Option RawPlayerData
  teams : ℕ → Option EntityInfo
  leagues : ℕ → Option EntityInfo
  nations : ℕ → Option EntityInfo

/-- `ProcessedPlayer`: the record pushed by `processPlayers` for every
item of the three sources. -/
structure ProcessedPlayer where
  assetId : ℕ
  name : String
  rating : ℤ
  position : String
  nation : String
  nationId : ℕ
  nationImg : Option String
  league : String
  leagueId : ℕ
  leagueImg : Option String
  team : String
  teamId : ℕ
  teamImg : Option String
  type : Category
deriving DecidableEq

/-- `AggregatedPlayer`: a `ProcessedPlayer` (the first-seen copy's fields,
spread by `{...player}`) plus a copy count and the list of source
categories the key appeared under. -/
structure AggregatedPlayer extends ProcessedPlayer where
  copies : ℕ
  types : List Category
deriving DecidableEq

/-- `FilterState`: the criteria record driving the `filteredPlayers`
memo (`ratingRange: [min, max]`, list criteria, `multipleCopiesOnly`). -/
structure FilterState where
  ratingRange : ℤ × ℤ
  positions : List String
  nations : List String
  leagues : List String
  teams : List String
  types : List Category
  multipleCopiesOnly : Bool

/-- `FetchResult` from `api.ts`. -/
structure FetchResult where
  players : List ProcessedPlayer
  warnings : List String
deriving DecidableEq

/-! ### Generic helpers: ordered association list, dedup, stable sort -/

/-- Append an element to a list only if it is not already present: the
update discipline of both the `types` list in aggregation and of
first-seen key order of a JS `Map`. -/
def insertNew {α : Type} [DecidableEq α] (l : List α) (x : α) : List α :=
  if x ∈ l then l else l ++ [x]

/-- Distinct elements of a list in order of first appearance. -/
def firstSeen {α : Type} [DecidableEq α] (l : List α) : List α :=
  l.foldl insertNew []

/-- First value stored under key `k` in an association list
(the model of `Map.get`). -/
def findVal {α β : Type} [DecidableEq α] (k : α) : List (α × β) → Option β
  | [] => none
  | kv :: rest => if kv.1 = k then some kv.2 else findVal k rest

/-- Update every entry stored under key `k` in place, preserving order
(the model of mutating the value found by `Map.get`). -/
def updateVal {α β : Type} [DecidableEq α] (k : α) (f : β → β)
    (m : List (α × β)) : List (α × β) :=
  m.map fun kv => if kv.1 = k then (kv.1, f kv.2) else kv

/-- Insert `a` into a descending-by-key list, after every element of
key ≥ its own: the stable descending insertion step. -/
def insertDescBy {α β : Type} [LinearOrder β] (key : α → β) (a : α) :
    List α → List α
  | [] => [a]
  | b :: bs => if key b ≤ key a then a :: b :: bs else b :: insertDescBy key a bs

/-- Stable sort, descending by `key`: the model of JS
`Array.prototype.sort` with comparator `(a, b) => key b - key a`
(JS sort is stable). -/
def sortDescBy {α β : Type} [LinearOrder β] (key : α → β) (l : List α) : List α :=
  l.foldr (insertDescBy key) []

/-! ### Resilient fetcher (`fetchWithRetry`, api.ts 167-189) -/

/-- The retry loop of `fetchWithRetry`, with attempt number `attempt`,
`r` attempts remaining, and the last caught error.  Attempt outcomes are
an oracle `f : ℕ → Except E T` (the result of `corsRequest` at each
1-based attempt).  Besides the final outcome we record the observable
effects: how many attempts ran, and the list of `setTimeout` waits (in
ms) performed between consecutive attempts. -/
def retryAux {E T : Type} (f : ℕ → Except E T) (fallbackE : E) :
    ℕ → ℕ → Option E → Except E T × ℕ × List ℕ
  | 0, _, lastError => (Except.error (lastError.getD fallbackE), 0, [])
  | r + 1, attempt, _ =>
    match f attempt with
    | Except.ok v => (Except.ok v, 1, [])
    | Except.error e =>
      if r = 0 then (Except.error e, 1, [])
      else
        let rest := retryAux f fallbackE r (attempt + 1) (some e)
        (rest.1, rest.2.1 + 1, attempt * 1000 :: rest.2.2)

/-- `fetchWithRetry(url, options, name, maxRetries = 3)`: run the loop
from attempt 1 with no recorded error.  The fallback error models
`new Error(\x7bFailed to fetch ... \x7d)`, reachable only when
`maxRetries < 1`. -/
def fetchWithRetry {E T : Type} (f : ℕ → Except E T) (maxRetries : ℕ)
    (fallbackE : E) : Except E T × ℕ × List ℕ :=
  retryAux f fallbackE maxRetries 1 none

/-! ### Player normalizer (`processPlayers`, api.ts 220-346) -/

/-- `getPlayerName` (api.ts 272-276): catalog lookup; `player.c ||
`given family`` where JS `||` also falls through on an *empty* common
name. -/
def getPlayerName (sd : StaticData) (assetId : ℕ) : String :=
  match sd.players assetId with
  | none => "Unknown"
  | some player =>
    match player.c with
    | some c => if c = "" then player.f ++ " " ++ player.l else c
    | none => player.f ++ " " ++ player.l

/-- `getTeamName` / `getLeagueName` / `getNationName` (api.ts 248-258):
`map.get(id)?.name || 'Unknown'`; JS `||` also replaces an empty stored
name by the sentinel. -/
def entityName (lookup : ℕ → Option EntityInfo) (id : ℕ) : String :=
  match lookup id with
  | some e => if e.name = "" then "Unknown" else e.name
  | none => "Unknown"

/-- `getTeamImg` / `getLeagueImg` / `getNationImg` (api.ts 260-270):
`map.get(id)?.imgUrl`. -/
def entityImg (lookup : ℕ → Option EntityInfo) (id : ℕ) : Option String :=
  match lookup id with
  | some e => e.imgUrl
  | none => none

/-- `item.possiblePositions?.join(' / ') || 'Unknown'` (api.ts 286, 308,
330): absent list, or a join that is the empty string (in particular an
empty list), yields the sentinel. -/
def posString (item : ItemData) : String :=
  match item.possiblePositions with
  | some ps =>
    if String.intercalate " / " ps = "" then "Unknown"
    else String.intercalate " / " ps
  | none => "Unknown"

/-- The record pushed for one raw item of source category `cat`
(api.ts 282-297 / 304-319 / 326-341; the three blocks are identical up
to the category tag). -/
def processItem (sd : StaticData) (cat : Category) (item : ItemData) :
    ProcessedPlayer :=
  { assetId := item.assetId
    name := getPlayerName sd item.assetId
    rating := item.rating
    position := posString item
    nation := entityName sd.nations item.nation
    nationId := item.nation
    nationImg := entityImg sd.nations item.nation
    league := entityName sd.leagues item.leagueId
    leagueId := item.leagueId
    leagueImg := entityImg sd.leagues item.leagueId
    team := entityName sd.teams item.teamid
    teamId := item.teamid
    teamImg := entityImg sd.teams item.teamid
    type := cat }

/-- `processPlayers` (api.ts 220-346), given the settled outcome of each
source's retrying fetch.  A rejected source is caught: its warning label
is recorded and an empty response is substituted (`{auctionInfo: []}` /
`{itemData: []}`).  The code pushes each warning as its source's promise
rejects; the settlement order of concurrent rejections is not
deterministic, so this embedding fixes source order (trade pile,
storage, duplicated) — the claims checked here have at most one failing
source, where the order is immaterial. -/
def processPlayers (sd : StaticData)
    (tradeRes : Except String TradePileResponse)
    (storageRes : Except String StorageResponse)
    (dupRes : Except String DuplicatedResponse) : FetchResult :=
  let tradePile := match tradeRes with
    | Except.ok r => r
    | Except.error _ => ⟨some []⟩
  let storage := match storageRes with
    | Except.ok r => r
    | Except.error _ => ⟨some []⟩
  let duplicated := match dupRes with
    | Except.ok r => r
    | Except.error _ => ⟨some []⟩
  let warnings :=
    (match tradeRes with
      | Except.error m => ["Trade pile failed: " ++ m]
      | Except.ok _ => []) ++
    (match storageRes with
      | Except.error m => ["Storage failed after 3 retries: " ++ m]
      | Except.ok _ => []) ++
    (match dupRes with
      | Except.error m => ["Duplicated items failed: " ++ m]
      | Except.ok _ => [])
  let fromTrade := match tradePile.auctionInfo with
    | some auctions =>
      auctions.map fun a => processItem sd Category.Transfer a.itemData
    | none => []
  let fromStorage := match storage.itemData with
    | some items => items.map (processItem sd Category.Storage)
    | none => []
  let fromDup := match duplicated.itemData with
    | some items => items.map (processItem sd Category.Duplicated)
    | none => []
  { players := fromTrade ++ fromStorage ++ fromDup, warnings := warnings }

/-- `processPlayers` composed with the three retrying fetches
(`fetchTradePile` / `fetchStorage` / `fetchDuplicated`, each
`fetchWithRetry` with `maxRetries = 3`), the attempt outcomes of each
source given as oracles. -/
def runNormalize (sd : StaticData)
    (tradeAttempts : ℕ → Except String TradePileResponse)
    (storageAttempts : ℕ → Except String StorageResponse)
    (dupAttempts : ℕ → Except String DuplicatedResponse) : FetchResult :=
  processPlayers sd
    (fetchWithRetry tradeAttempts 3 "Failed to fetch Trade pile after 3 retries").1
    (fetchWithRetry storageAttempts 3 "Failed to fetch Storage after 3 retries").1
    (fetchWithRetry dupAttempts 3 "Failed to fetch Duplicated items after 3 retries").1

/-- Items a trade-pile response contributes. -/
def tradeItems (r : TradePileResponse) : List ItemData :=
  (r.auctionInfo.getD []).map TradePileAuction.itemData

/-- Items a storage response contributes. -/
def storageItems (r : StorageResponse) : List ItemData :=
  r.itemData.getD []

/-- Items a duplicated-items response contributes. -/
def dupItems (r : DuplicatedResponse) : List ItemData :=
  r.itemData.getD []

/-! ### Aggregator (`aggregatedPlayers` memo, App.tsx 651-673) -/

/-- The aggregation key.  The source keys its `Map` by the template
string `` `$\x7bplayer.assetId\x7d-$\x7bplayer.rating\x7d` ``, which is
injective in the pair (a decimal numeral contains no interior `-`), so
the embedding keys by the pair itself. -/
def aggKey (p : ProcessedPlayer) : ℕ × ℤ :=
  (p.assetId, p.rating)

/-- The key of an aggregated entry. -/
def aggKeyA (a : AggregatedPlayer) : ℕ × ℤ :=
  (a.assetId, a.rating)

/-- First occurrence of a key: `{...player, copies: 1, types:
[player.type]}`. -/
def initAgg (p : ProcessedPlayer) : AggregatedPlayer :=
  { toProcessedPlayer := p, copies := 1, types := [p.type] }

/-- Subsequent occurrence: `existing.copies += 1` and push the category
if not already present. -/
def bumpAgg (cat : Category) (a : AggregatedPlayer) : AggregatedPlayer :=
  { a with copies := a.copies + 1, types := insertNew a.types cat }

/-- One iteration of the aggregation loop over `playerMap`. -/
def aggStep (m : List ((ℕ × ℤ) × AggregatedPlayer)) (p : ProcessedPlayer) :
    List ((ℕ × ℤ) × AggregatedPlayer) :=
  match findVal (aggKey p) m with
  | some _ => updateVal (aggKey p) (bumpAgg p.type) m
  | none => m ++ [(aggKey p, initAgg p)]

/-- `aggregatedPlayers`: fold the records into the insertion-ordered
map, then return `Array.from(playerMap.values())`. -/
def aggregatedPlayers (players : List ProcessedPlayer) : List AggregatedPlayer :=
  (players.foldl aggStep []).map Prod.snd

/-- Folding `bumpAgg` over the later records of a key. -/
def accumulate (a : AggregatedPlayer) (qs : List ProcessedPlayer) : AggregatedPlayer :=
  qs.foldl (fun b q => bumpAgg q.type b) a

/-! ### Filter engine (`filteredPlayers` memo, App.tsx 711-750) -/

/-- The early-return predicate body of the `filteredPlayers` memo. -/
def passes (filters : FilterState) (player : AggregatedPlayer) : Bool :=
  if decide (player.rating < filters.ratingRange.1) ||
     decide (filters.ratingRange.2 < player.rating) then false
  else if decide (0 < filters.positions.length) &&
       !(filters.positions.any fun pos =>
          (player.position.splitOn " / ").contains pos) then false
  else if decide (0 < filters.nations.length) &&
       !(filters.nations.contains player.nation) then false
  else if decide (0 < filters.leagues.length) &&
       !(filters.leagues.contains player.league) then false
  else if decide (0 < filters.teams.length) &&
       !(filters.teams.contains player.team) then false
  else if decide (0 < filters.types.length) &&
       !(player.types.any fun t => filters.types.contains t) then false
  else if filters.multipleCopiesOnly && decide (player.copies < 2) then false
  else true

/-- `filteredPlayers`: filter then `.sort((a, b) => b.rating - a.rating)`
(stable, descending by rating).  `Array.prototype.filter` allocates a
fresh array and `.sort` mutates only that copy, so the input is never
mutated — the embedding is pure by construction. -/
def filteredPlayers (players : List AggregatedPlayer) (filters : FilterState) :
    List AggregatedPlayer :=
  sortDescBy (fun a => a.rating) (players.filter (passes filters))

/-- The pass condition as the spec's conjunction, for the refinement
statement of the filter claim. -/
def passesSpec (filters : FilterState) (a : AggregatedPlayer) : Prop :=
  (filters.ratingRange.1 ≤ a.rating ∧ a.rating ≤ filters.ratingRange.2) ∧
  (filters.positions = [] ∨
    ∃ pos ∈ filters.positions, pos ∈ a.position.splitOn " / ") ∧
  (filters.nations = [] ∨ a.nation ∈ filters.nations) ∧
  (filters.leagues = [] ∨ a.league ∈ filters.leagues) ∧
  (filters.teams = [] ∨ a.team ∈ filters.teams) ∧
  (filters.types = [] ∨ ∃ t ∈ a.types, t ∈ filters.types) ∧
  (filters.multipleCopiesOnly = true → 2 ≤ a.copies)

/-! ### SBC ranking pipeline (`fetchAllSBCsWithDetails`, api.ts 502-576) -/

/-- `SBCSet` (api.ts 355-365).  Challenge counts, repeats and
times-completed are JS numbers; they are modelled as `ℤ` so that the
code's subtraction is the literal ring subtraction. -/
structure SBCSet where
  setId : ℕ
  name : String
  description : String
  challengesCount : ℤ
  challengesCompletedCount : ℤ
  categoryId : ℕ
  repeatable : Bool
  repeats : ℤ
  timesCompleted : ℤ
deriving DecidableEq

/-- `SBCVote` (api.ts 404-408). -/
structure SBCVote where
  id : ℕ
  likes : ℕ
  dislikes : ℕ
deriving DecidableEq

/-- `SBCWithDetails` (api.ts 414-422); the two score fields live in `ℝ`. -/
structure SBCWithDetails where
  setId : ℕ
  name : String
  challengesCount : ℤ
  likes : ℕ
  dislikes : ℕ
  likePercent : ℝ
  rankScore : ℝ

/-- The completion filter (api.ts 509-528): drop a repeatable set iff
its repeat budget is exhausted *and* no challenge remains, drop a
non-repeatable set iff no challenge remains; every survivor's
`challengesCount` is replaced by the remaining count. -/
def filterSets : List SBCSet → List SBCSet
  | [] => []
  | set :: rest =>
    let challengesRemaining := set.challengesCount - set.challengesCompletedCount
    if set.repeatable then
      if set.repeats ≤ set.timesCompleted ∧ challengesRemaining = 0 then
        filterSets rest
      else
        { set with challengesCount := challengesRemaining } :: filterSets rest
    else
      if challengesRemaining = 0 then
        filterSets rest
      else
        { set with challengesCount := challengesRemaining } :: filterSets rest

/-- The exclusion rule as the spec states it, for the refinement
statement of the completion-filter claim. -/
def excludedSpec (s : SBCSet) : Prop :=
  (s.repeatable = true ∧ s.repeats ≤ s.timesCompleted ∧
    s.challengesCount - s.challengesCompletedCount = 0) ∨
  (s.repeatable = false ∧ s.challengesCount - s.challengesCompletedCount = 0)

instance (s : SBCSet) : Decidable (excludedSpec s) := by
  unfold excludedSpec
  infer_instance

/-- The Wilson score lower bound of api.ts 554-558, over `ℝ`:
`z = 1.96`, `phat = likes / totalVotes`, and `rankScore = 0` when there
are no votes. -/
noncomputable def rankScore (likes dislikes : ℕ) : ℝ :=
  let totalVotes := likes + dislikes
  if 0 < totalVotes then
    let n : ℝ := totalVotes
    let z : ℝ := 1.96
    let phat : ℝ := likes / n
    (phat + z * z / (2 * n) -
      z * Real.sqrt ((phat * (1 - phat) + z * z / (4 * n)) / n)) /
      (1 + z * z / n)
  else 0

/-- One element of the `sets.map(...)` of api.ts 542-569: look up the
set's votes (`vote?.likes || 0` — zero when absent; `|| 0` is the
identity on the natural-number vote counts), compute the like
percentage and the Wilson rank score.  `set.challengesCount || 0` is the
identity on `ℤ` values (`0 || 0` is `0`). -/
noncomputable def scoreSet (votes : ℕ → Option SBCVote) (set : SBCSet) :
    SBCWithDetails :=
  let likes : ℕ := match votes set.setId with
    | some v => v.likes
    | none => 0
  let dislikes : ℕ := match votes set.setId with
    | some v => v.dislikes
    | none => 0
  let totalVotes := likes + dislikes
  { setId := set.setId
    name := set.name
    challengesCount := set.challengesCount
    likes := likes
    dislikes := dislikes
    likePercent := if 0 < totalVotes then ((likes : ℝ) / (totalVotes : ℝ)) * 100 else 0
    rankScore := rankScore likes dislikes }

/-- The process-wide `sbcCache` slot: the stored array and the
`Date.now()` timestamp of the store. -/
def SBCCacheState : Type :=
  Option (List SBCWithDetails × ℤ)

/-- `SBC_CACHE_DURATION = 5 * 60 * 1000`. -/
def SBC_CACHE_DURATION : ℤ :=
  5 * 60 * 1000

/-- The cache-validity test of api.ts 503:
`sbcCache && Date.now() - sbcCache.timestamp < SBC_CACHE_DURATION`. -/
def cacheHit (now : ℤ) (st : SBCCacheState) : Bool :=
  match st with
  | some (_, ts) => decide (now - ts < SBC_CACHE_DURATION)
  | none => false

/-- The cache-miss path of `fetchAllSBCsWithDetails` (api.ts 507-575):
filter the fetched sets; an empty surviving list returns `[]` at once
(no vote fetch, cache untouched); otherwise score, sort descending by
`rankScore` (JS stable sort) and store `\x7bdata, timestamp: Date.now()\x7d`
before returning.  The result triple also reports the new cache slot and
whether a set fetch was issued. -/
noncomputable def runSBCCompute (now : ℤ) (st : SBCCacheState)
    (allSets : List SBCSet) (votes : ℕ → Option SBCVote) :
    List SBCWithDetails × SBCCacheState × Bool :=
  let sets := filterSets allSets
  if sets = [] then ([], st, true)
  else
    let result := sortDescBy SBCWithDetails.rankScore (sets.map (scoreSet votes))
    (result, some (result, now), true)

/-- `fetchAllSBCsWithDetails`, as a step function on the cache state: a
valid cache entry is returned unchanged with no fetch; otherwise the
compute path runs.  The two `Date.now()` reads of one invocation (the
validity check and the store) are modelled by the single instant `now`. -/
noncomputable def runSBCPipeline (now : ℤ) (st : SBCCacheState)
    (allSets : List SBCSet) (votes : ℕ → Option SBCVote) :
    List SBCWithDetails × SBCCacheState × Bool :=
  match st with
  | some (d, ts) =>
    if now - ts < SBC_CACHE_DURATION then (d, some (d, ts), false)
    else runSBCCompute now (some (d, ts)) allSets votes
  | none => runSBCCompute now none allSets votes

/-! ### Sample inputs used by witnesses and counterexamples -/

/-- The spec's exclusion example: `repeatable = true, timesCompleted = 2,
repeats = 2, challengesCount = 5, challengesCompletedCount = 5`. -/
def sampleExhaustedSet : SBCSet :=
  { setId := 101, name := "Gold Upgrade", description := "done",
    challengesCount := 5, challengesCompletedCount := 5, categoryId := 1,
    repeatable := true, repeats := 2, timesCompleted := 2 }

/-- The spec's retention example: as above with `timesCompleted = 1`. -/
def sampleRetainedSet : SBCSet :=
  { sampleExhaustedSet with timesCompleted := 1 }

/-- A set the completion filter keeps (2 challenges remaining). -/
def sampleOpenSet : SBCSet :=
  { setId := 202, name := "Icon Pick", description := "open",
    challengesCount := 5, challengesCompletedCount := 3, categoryId := 2,
    repeatable := false, repeats := 0, timesCompleted := 0 }

/-- An empty vote lookup. -/
def noVotes : ℕ → Option SBCVote :=
  fun _ => none

/-- Catalog entry whose common name is the *empty* string. -/
def sampleCatalogEntry : RawPlayerData :=
  { id := 7, f := "Lionel", l := "Messi", c := some "" }

/-- Reference data holding only the one catalog entry. -/
def sampleStaticData : StaticData :=
  { players := fun id => if id = 7 then some sampleCatalogEntry else none
    teams := fun _ => none
    leagues := fun _ => none
    nations := fun _ => none }

/-- A raw item pointing at `sampleCatalogEntry`, with an *empty*
eligible-position list. -/
def sampleItem : ItemData :=
  { assetId := 7, rating := 91, possiblePositions := some [],
    nation := 1, leagueId := 2, teamid := 3 }

/-- The same raw item with two eligible positions. -/
def sampleItemST : ItemData :=
  { sampleItem with possiblePositions := some ["ST", "CF"] }

/-- A normalized record from the market listings source. -/
def samplePlayerT : ProcessedPlayer :=
  { assetId := 7, name := "Lionel Messi", rating := 91, position := "ST",
    nation := "Argentina", nationId := 1, nationImg := none,
    league := "LaLiga", leagueId := 2, leagueImg := none,
    team := "Barcelona", teamId := 3, teamImg := none,
    type := Category.Transfer }

/-- A second physical copy of the same card, from storage. -/
def samplePlayerS : ProcessedPlayer :=
  { samplePlayerT with type := Category.Storage }

/-- The aggregation of the two sample copies. -/
def sampleAggregated : AggregatedPlayer :=
  { toProcessedPlayer := samplePlayerT, copies := 2,
    types := [Category.Transfer, Category.Storage] }

/-- A lower-rated aggregated entry. -/
def sampleAggregatedLow : AggregatedPlayer :=
  { toProcessedPlayer := { samplePlayerT with rating := 85 }, copies := 1,
    types := [Category.Duplicated] }

/-- Criteria with every list empty, the full rating range and no
multiple-copies restriction. -/
def emptyFilters : FilterState :=
  { ratingRange := (0, 99), positions := [], nations := [], leagues := [],
    teams := [], types := [], multipleCopiesOnly := false }

/-! ### Lemmas: Wilson score -/

/-- At 100% approval the Wilson lower bound collapses to a closed form:
with `phat = 1` the variance term is `z² / (4n²)`, an exact square, so
the score is `1 / (1 + z² / n)`. -/
theorem rankScore_allLikes (k : ℕ) (hk : 0 < k) :
    rankScore k 0 = 1 / (1 + (1.96 : ℝ) * 1.96 / (k : ℝ)) := by
  have hk0 : (0 : ℝ) < (k : ℝ) := by exact_mod_cast hk
  have hkne : (k : ℝ) ≠ 0 := ne_of_gt hk0
  have hpos : 0 < k + 0 := by omega
  unfold rankScore
  rw [if_pos hpos]
  simp only [Nat.add_zero]
  rw [div_self hkne]
  rw [show ((1 : ℝ) * (1 - 1) + 1.96 * 1.96 / (4 * (k : ℝ))) / (k : ℝ) =
      ((1.96 : ℝ) / (2 * (k : ℝ))) ^ 2 by field_simp; ring]
  rw [Real.sqrt_sq (by positivity)]
  have hden : (1 : ℝ) + 1.96 * 1.96 / (k : ℝ) ≠ 0 := by positivity
  field_simp

/-- C4: in the SBC ranking computation, a set with no votes gets
`rankScore` exactly `0`; at `likes = 10, dislikes = 0` the score is
strictly between `0` and `1` and strictly greater than at
`likes = 5, dislikes = 0` (the Wilson lower bound at `z = 1.96` strictly
increases with the vote count at 100% approval). -/
theorem rankScore_wilson_boundary :
    rankScore 0 0 = 0 ∧
    0 < rankScore 10 0 ∧ rankScore 10 0 < 1 ∧
    rankScore 5 0 < rankScore 10 0 := by
  refine ⟨?_, ?_, ?_, ?_⟩
  · unfold rankScore
    norm_num
  · rw [rankScore_allLikes 10 (by norm_num)]
    push_cast
    norm_num
  · rw [rankScore_allLikes 10 (by norm_num)]
    push_cast
    norm_num
  · rw [rankScore_allLikes 10 (by norm_num), rankScore_allLikes 5 (by norm_num)]
    push_cast
    norm_num

/-! ### Lemmas: SBC completion filter -/

/-- One step of the completion filter, stated through the spec's
exclusion rule. -/
theorem filterSets_cons (s : SBCSet) (rest : List SBCSet) :
    filterSets (s :: rest) =
      if excludedSpec s then filterSets rest
      else { s with challengesCount := s.challengesCount - s.challengesCompletedCount } ::
        filterSets rest := by
  by_cases hr : s.repeatable = true
  · by_cases hc : s.repeats ≤ s.timesCompleted ∧
        s.challengesCount - s.challengesCompletedCount = 0
    · have hex : excludedSpec s := Or.inl ⟨hr, hc.1, hc.2⟩
      rw [if_pos hex]
      simp only [filterSets, hr, if_true, if_pos hc]
    · rw [if_neg ?_]
      · simp only [filterSets, hr, if_true, if_neg hc]
      · rintro (⟨_, h2, h3⟩ | ⟨h1, _⟩)
        · exact hc ⟨h2, h3⟩
        · simp [hr] at h1
  · have hr' : s.repeatable = false := by
      cases h : s.repeatable
      · rfl
      · exact absurd h hr
    by_cases hc : s.challengesCount - s.challengesCompletedCount = 0
    · have hex : excludedSpec s := Or.inr ⟨hr', hc⟩
      rw [if_pos hex]
      simp only [filterSets, hr', Bool.false_eq_true, if_false, if_pos hc]
    · rw [if_neg ?_]
      · simp only [filterSets, hr', Bool.false_eq_true, if_false, if_neg hc]
      · rintro (⟨h1, _, _⟩ | ⟨_, h3⟩)
        · simp [hr'] at h1
        · exact hc h3

/-- C5: the ranking pipeline excludes a fetched set iff it is repeatable
with exhausted repeat budget and no remaining challenge, or
non-repeatable with no remaining challenge; every survivor's
`challengesCount` is replaced by the remaining count.  In particular the
spec's exhausted example is dropped and its `timesCompleted = 1` variant
is kept (with `challengesCount` rewritten to `0`). -/
theorem filterSets_exclusion :
    (∀ sets : List SBCSet,
      filterSets sets =
        (sets.filter fun s => decide (¬ excludedSpec s)).map
          fun s => { s with challengesCount :=
            s.challengesCount - s.challengesCompletedCount }) ∧
    filterSets [sampleExhaustedSet] = [] ∧
    filterSets [sampleRetainedSet] = [{ sampleRetainedSet with challengesCount := 0 }] := by
  refine ⟨?_, by decide, by decide⟩
  intro sets
  induction sets with
  | nil => rfl
  | cons s rest ih =>
    rw [filterSets_cons, List.filter_cons]
    by_cases hex : excludedSpec s
    · rw [if_pos hex]
      simp [hex, ih]
    · rw [if_neg hex]
      simp [hex, ih]

/-! ### Lemmas: resilient fetcher -/

/-- A successful attempt returns at once: one attempt, no waits. -/
theorem retryAux_ok {E T : Type} (f : ℕ → Except E T) (fb : E) (r a : ℕ)
    (last : Option E) (v : T) (h : f a = Except.ok v) (hr : 0 < r) :
    retryAux f fb r a last = (Except.ok v, 1, []) := by
  cases r with
  | zero => omega
  | succ r => simp [retryAux, h]

/-- The loop runs at most `r` attempts. -/
theorem retryAux_count_le {E T : Type} (f : ℕ → Except E T) (fb : E) :
    ∀ (r a : ℕ) (last : Option E), (retryAux f fb r a last).2.1 ≤ r := by
  intro r
  induction r with
  | zero => intro a last; simp [retryAux]
  | succ r ih =>
    intro a last
    cases hf : f a with
    | ok v => simp [retryAux, hf]
    | error e =>
      by_cases hr : r = 0
      · simp [retryAux, hf, hr]
      · simpa [retryAux, hf, hr] using ih (a + 1) (some e)

/-- With at least one attempt allowed, at least one attempt runs. -/
theorem retryAux_count_pos {E T : Type} (f : ℕ → Except E T) (fb : E)
    (r a : ℕ) (last : Option E) (hr : 0 < r) :
    1 ≤ (retryAux f fb r a last).2.1 := by
  cases r with
  | zero => omega
  | succ r =>
    cases hf : f a with
    | ok v => simp [retryAux, hf]
    | error e =>
      by_cases hr0 : r = 0
      · simp [retryAux, hf, hr0]
      · simp [retryAux, hf, hr0]

/-- Prepending the wait of the current attempt to the waits of the later
attempts re-indexes the attempt numbers. -/
theorem cons_wait_map_range (n a : ℕ) :
    a * 1000 :: (List.range n).map (fun i => (a + 1 + i) * 1000) =
      (List.range (n + 1)).map (fun i => (a + i) * 1000) := by
  rw [List.range_succ_eq_map, List.map_cons, List.map_map]
  rw [List.cons.injEq]
  refine ⟨by ring, ?_⟩
  exact (List.map_congr_left fun i _ => by
    simp only [Function.comp_apply]
    omega).symm

/-- The recorded waits are exactly `attempt * 1000` for each attempt that
failed and was followed by another attempt, in order. -/
theorem retryAux_waits {E T : Type} (f : ℕ → Except E T) (fb : E) :
    ∀ (r a : ℕ) (last : Option E),
      (retryAux f fb r a last).2.2 =
        (List.range ((retryAux f fb r a last).2.1 - 1)).map
          (fun i => (a + i) * 1000) := by
  intro r
  induction r with
  | zero => intro a last; simp [retryAux]
  | succ r ih =>
    intro a last
    cases hf : f a with
    | ok v => simp [retryAux, hf]
    | error e =>
      by_cases hr : r = 0
      · simp [retryAux, hf, hr]
      · have hpos : 1 ≤ (retryAux f fb r (a + 1) (some e)).2.1 :=
          retryAux_count_pos f fb r (a + 1) (some e) (Nat.pos_of_ne_zero hr)
        obtain ⟨n, hn⟩ : ∃ n, (retryAux f fb r (a + 1) (some e)).2.1 = n + 1 :=
          ⟨_, (Nat.succ_pred_eq_of_pos hpos).symm⟩
        simp only [retryAux, hf, hr, if_false]
        rw [ih (a + 1) (some e), hn]
        simp only [Nat.add_sub_cancel]
        exact cons_wait_map_range n a

/-- If every attempt from `a` through `a + r - 1` fails, the loop makes
all `r` attempts and surfaces the error of the last one. -/
theorem retryAux_allFail {E T : Type} (f : ℕ → Except E T) (fb : E)
    (err : ℕ → E) :
    ∀ (r a : ℕ) (last : Option E), 0 < r →
      (∀ i, a ≤ i → i < a + r → f i = Except.error (err i)) →
      (retryAux f fb r a last).1 = Except.error (err (a + r - 1)) ∧
        (retryAux f fb r a last).2.1 = r := by
  intro r
  induction r with
  | zero => intro a last h; omega
  | succ r ih =>
    intro a last _ hall
    have hfa : f a = Except.error (err a) := hall a le_rfl (by omega)
    by_cases hr : r = 0
    · subst hr
      simp [retryAux, hfa]
    · have h1 : 0 < r := Nat.pos_of_ne_zero hr
      have hrec := ih (a + 1) (some (err a)) h1
        (fun i hi1 hi2 => hall i (by omega) (by omega))
      have hidx : a + 1 + r - 1 = a + (r + 1) - 1 := by omega
      simp only [retryAux, hfa, hr, if_false]
      rw [← hidx]
      exact ⟨hrec.1, by rw [hrec.2]⟩

/-- If attempts `a .. k - 1` fail and attempt `k` succeeds (within the
budget), the loop stops at attempt `k` with the successful value: a
retry happens only after a thrown failure. -/
theorem retryAux_firstOk {E T : Type} (f : ℕ → Except E T) (fb : E) (v : T) :
    ∀ (r a k : ℕ) (last : Option E), a ≤ k → k < a + r →
      (∀ i, a ≤ i → i < k → ∃ e, f i = Except.error e) →
      f k = Except.ok v →
      (retryAux f fb r a last).1 = Except.ok v ∧
        (retryAux f fb r a last).2.1 = k - a + 1 := by
  intro r
  induction r with
  | zero => intro a k last h1 h2; omega
  | succ r ih =>
    intro a k last hak hkr hfail hok
    by_cases hEq : a = k
    · subst hEq
      rw [retryAux_ok f fb (r + 1) a last v hok (by omega)]
      simp
    · have hlt : a < k := lt_of_le_of_ne hak hEq
      obtain ⟨e, hfa⟩ := hfail a le_rfl hlt
      have hr : r ≠ 0 := by omega
      have hrec := ih (a + 1) k (some e) (by omega) (by omega)
        (fun i hi1 hi2 => hfail i (by omega) hi2) hok
      simp only [retryAux, hfa, hr, if_false]
      refine ⟨hrec.1, ?_⟩
      rw [hrec.2]
      omega

/-- C7: `fetchWithRetry` makes at most `maxRetries` attempts; the waits
between consecutive attempts are exactly `attempt * 1000` ms for the
1-based attempt numbers `1 .. attempts - 1`; a successful attempt (with
any value, including an application-level empty result) stops the loop
at once; and when every attempt fails, all `maxRetries` attempts run and
the error of the last attempt is surfaced. -/
theorem fetchWithRetry_contract {E T : Type} (f : ℕ → Except E T)
    (maxRetries : ℕ) (fb : E) :
    (fetchWithRetry f maxRetries fb).2.1 ≤ maxRetries ∧
    (fetchWithRetry f maxRetries fb).2.2 =
      (List.range ((fetchWithRetry f maxRetries fb).2.1 - 1)).map
        (fun i => (i + 1) * 1000) ∧
    (∀ (k : ℕ) (v : T), 1 ≤ k → k ≤ maxRetries →
      (∀ i, 1 ≤ i → i < k → ∃ e, f i = Except.error e) →
      f k = Except.ok v →
      (fetchWithRetry f maxRetries fb).1 = Except.ok v ∧
        (fetchWithRetry f maxRetries fb).2.1 = k) ∧
    (∀ err : ℕ → E, 1 ≤ maxRetries →
      (∀ i, 1 ≤ i → i ≤ maxRetries → f i = Except.error (err i)) →
      (fetchWithRetry f maxRetries fb).1 = Except.error (err maxRetries) ∧
        (fetchWithRetry f maxRetries fb).2.1 = maxRetries) := by
  unfold fetchWithRetry
  refine ⟨retryAux_count_le f fb maxRetries 1 none, ?_, ?_, ?_⟩
  · rw [retryAux_waits f fb maxRetries 1 none]
    exact List.map_congr_left fun i _ => by ring_nf
  · intro k v hk1 hkm hfail hok
    have h := retryAux_firstOk f fb v maxRetries 1 k none hk1 (by omega) hfail hok
    exact ⟨h.1, by rw [h.2]; omega⟩
  · intro err hm hall
    have h := retryAux_allFail f fb err maxRetries 1 none (by omega)
      (fun i hi1 hi2 => hall i hi1 (by omega))
    have hidx : 1 + maxRetries - 1 = maxRetries := by omega
    rw [hidx] at h
    exact h

/-- Witness for C7: with attempts 1 and 2 failing and attempt 3
succeeding, the loop returns the success and makes exactly 3 attempts. -/
theorem fetchWithRetry_contract_witness :
    (fetchWithRetry
        (fun i => if i = 3 then Except.ok (42 : ℕ) else Except.error "boom")
        3 "fallback").1 = Except.ok 42 ∧
    (fetchWithRetry
        (fun i => if i = 3 then Except.ok (42 : ℕ) else Except.error "boom")
        3 "fallback").2.1 = 3 :=
  (fetchWithRetry_contract
      (fun i => if i = 3 then Except.ok (42 : ℕ) else Except.error "boom")
      3 "fallback").2.2.1 3 42 (by norm_num) (by norm_num)
    (fun i hi1 hi2 => ⟨"boom", by interval_cases i <;> rfl⟩)
    (by norm_num)

/-! ### Lemmas: partial-failure isolation in the normalizer -/

/-- A source whose three attempts all fail yields the last attempt's
error after the retries. -/
theorem fetchWithRetry_three_errors {T : Type} (f : ℕ → Except String T)
    (fb : String) (err : ℕ → String)
    (h : ∀ i, 1 ≤ i → i ≤ 3 → f i = Except.error (err i)) :
    (fetchWithRetry f 3 fb).1 = Except.error (err 3) := by
  have hall := retryAux_allFail f fb err 3 1 none (by omega)
    (fun i h1 h2 => h i h1 (by omega))
  simpa using hall.1

/-- A source succeeding on its first attempt yields that response. -/
theorem fetchWithRetry_first_ok {T : Type} (f : ℕ → Except String T)
    (fb : String) (v : T) (h : f 1 = Except.ok v) :
    (fetchWithRetry f 3 fb).1 = Except.ok v := by
  rw [fetchWithRetry, retryAux_ok f fb 3 1 none v h (by omega)]

/-- C2: when exactly one of the three item sources fails on every fetch
attempt and the other two succeed, `processPlayers` returns exactly one
warning naming the failed source, and a players list built only from the
two succeeding sources' items (empty iff both succeeding sources are
empty); the one failure never aborts the whole operation. -/
theorem processPlayers_partial_failure (sd : StaticData)
    (ta : ℕ → Except String TradePileResponse)
    (sa : ℕ → Except String StorageResponse)
    (da : ℕ → Except String DuplicatedResponse) :
    (∀ (err : ℕ → String) (s : StorageResponse) (d : DuplicatedResponse),
      (∀ i, 1 ≤ i → i ≤ 3 → ta i = Except.error (err i)) →
      sa 1 = Except.ok s → da 1 = Except.ok d →
      (runNormalize sd ta sa da).warnings = ["Trade pile failed: " ++ err 3] ∧
      (runNormalize sd ta sa da).players =
        (storageItems s).map (processItem sd Category.Storage) ++
          (dupItems d).map (processItem sd Category.Duplicated) ∧
      ((runNormalize sd ta sa da).players = [] ↔
        storageItems s = [] ∧ dupItems d = [])) ∧
    (∀ (err : ℕ → String) (t : TradePileResponse) (d : DuplicatedResponse),
      (∀ i, 1 ≤ i → i ≤ 3 → sa i = Except.error (err i)) →
      ta 1 = Except.ok t → da 1 = Except.ok d →
      (runNormalize sd ta sa da).warnings =
        ["Storage failed after 3 retries: " ++ err 3] ∧
      (runNormalize sd ta sa da).players =
        (tradeItems t).map (processItem sd Category.Transfer) ++
          (dupItems d).map (processItem sd Category.Duplicated) ∧
      ((runNormalize sd ta sa da).players = [] ↔
        tradeItems t = [] ∧ dupItems d = [])) ∧
    (∀ (err : ℕ → String) (t : TradePileResponse) (s : StorageResponse),
      (∀ i, 1 ≤ i → i ≤ 3 → da i = Except.error (err i)) →
      ta 1 = Except.ok t → sa 1 = Except.ok s →
      (runNormalize sd ta sa da).warnings =
        ["Duplicated items failed: " ++ err 3] ∧
      (runNormalize sd ta sa da).players =
        (tradeItems t).map (processItem sd Category.Transfer) ++
          (storageItems s).map (processItem sd Category.Storage) ∧
      ((runNormalize sd ta sa da).players = [] ↔
        tradeItems t = [] ∧ storageItems s = [])) := by
  refine ⟨?_, ?_, ?_⟩
  · intro err s d hfail hs hd
    unfold runNormalize
    rw [fetchWithRetry_three_errors ta _ err hfail,
      fetchWithRetry_first_ok sa _ s hs, fetchWithRetry_first_ok da _ d hd]
    unfold processPlayers storageItems dupItems
    obtain ⟨si⟩ := s
    obtain ⟨di⟩ := d
    cases si <;> cases di <;> simp [List.append_eq_nil]
  · intro err t d hfail ht hd
    unfold runNormalize
    rw [fetchWithRetry_three_errors sa _ err hfail,
      fetchWithRetry_first_ok ta _ t ht, fetchWithRetry_first_ok da _ d hd]
    unfold processPlayers tradeItems dupItems
    obtain ⟨ti⟩ := t
    obtain ⟨di⟩ := d
    cases ti <;> cases di <;> simp [List.append_eq_nil, Function.comp]
  · intro err t s hfail ht hs
    unfold runNormalize
    rw [fetchWithRetry_three_errors da _ err hfail,
      fetchWithRetry_first_ok ta _ t ht, fetchWithRetry_first_ok sa _ s hs]
    unfold processPlayers tradeItems storageItems
    obtain ⟨ti⟩ := t
    obtain ⟨si⟩ := s
    cases ti <;> cases si <;> simp [List.append_eq_nil, Function.comp]

/-- Witness for C2: trade pile always failing, storage holding one item,
duplicated empty — one warning, players from storage only. -/
theorem processPlayers_partial_failure_witness :
    (runNormalize sampleStaticData
      (fun _ => Except.error "boom")
      (fun _ => Except.ok ⟨some [sampleItem]⟩)
      (fun _ => Except.ok ⟨some []⟩)).warnings =
        ["Trade pile failed: boom"] ∧
    (runNormalize sampleStaticData
      (fun _ => Except.error "boom")
      (fun _ => Except.ok ⟨some [sampleItem]⟩)
      (fun _ => Except.ok ⟨some []⟩)).players =
        [processItem sampleStaticData Category.Storage sampleItem] := by
  have h := (processPlayers_partial_failure sampleStaticData
      (fun _ => Except.error "boom")
      (fun _ => Except.ok ⟨some [sampleItem]⟩)
      (fun _ => Except.ok ⟨some []⟩)).1
    (fun _ => "boom") ⟨some [sampleItem]⟩ ⟨some []⟩
    (fun i h1 h2 => rfl) rfl rfl
  exact ⟨h.1, by rw [h.2.1]; rfl⟩

/-! ### Lemmas: reference lookups and position join in the normalizer -/

/-- C8 counterexample: a catalog entry whose common name is present but
*empty*.  JS `player.c || ...` treats the empty string as falsy, so the
displayed name is the given+family name, not the (present) common name —
the claim's "the display name is the common name if present" fails. -/
theorem processItem_commonName_counterexample :
    sampleStaticData.players sampleItem.assetId = some sampleCatalogEntry ∧
    sampleCatalogEntry.c = some "" ∧
    (processItem sampleStaticData Category.Transfer sampleItem).name ≠ "" ∧
    (processItem sampleStaticData Category.Transfer sampleItem).name =
      "Lionel Messi" := by
  refine ⟨rfl, rfl, ?_, by decide⟩
  decide

/-- C8 (amended): normalization is total; a nation/league/team/asset id
absent from the reference maps resolves to the sentinel `"Unknown"` with
no image; a present catalog entry displays its common name when that is
present *and non-empty*, else the given name followed by the family
name. -/
theorem processItem_unknown_refs (sd : StaticData) (cat : Category)
    (item : ItemData) :
    (sd.nations item.nation = none →
      (processItem sd cat item).nation = "Unknown" ∧
      (processItem sd cat item).nationImg = none) ∧
    (sd.leagues item.leagueId = none →
      (processItem sd cat item).league = "Unknown" ∧
      (processItem sd cat item).leagueImg = none) ∧
    (sd.teams item.teamid = none →
      (processItem sd cat item).team = "Unknown" ∧
      (processItem sd cat item).teamImg = none) ∧
    (sd.players item.assetId = none →
      (processItem sd cat item).name = "Unknown") ∧
    (∀ p : RawPlayerData, sd.players item.assetId = some p →
      (∀ c, p.c = some c → c ≠ "" → (processItem sd cat item).name = c) ∧
      (p.c = none ∨ p.c = some "" →
        (processItem sd cat item).name = p.f ++ " " ++ p.l)) := by
  refine ⟨?_, ?_, ?_, ?_, ?_⟩
  · intro h
    exact ⟨by simp [processItem, entityName, h], by simp [processItem, entityImg, h]⟩
  · intro h
    exact ⟨by simp [processItem, entityName, h], by simp [processItem, entityImg, h]⟩
  · intro h
    exact ⟨by simp [processItem, entityName, h], by simp [processItem, entityImg, h]⟩
  · intro h
    simp [processItem, getPlayerName, h]
  · intro p hp
    constructor
    · intro c hc hcne
      simp [processItem, getPlayerName, hp, hc, hcne]
    · rintro (h | h) <;> simp [processItem, getPlayerName, hp, h]

/-- Witness for C8: the sample item's nation id is absent from the maps,
so the record degrades to the sentinel with no image. -/
theorem processItem_unknown_refs_witness :
    (processItem sampleStaticData Category.Transfer sampleItem).nation =
      "Unknown" ∧
    (processItem sampleStaticData Category.Transfer sampleItem).nationImg =
      none :=
  (processItem_unknown_refs sampleStaticData Category.Transfer sampleItem).1 rfl

/-- C9 counterexample: an item with a present but *empty*
eligible-position list.  `possiblePositions?.join(' / ') || 'Unknown'`
turns the empty join into the sentinel, so the normalized position is
`"Unknown"`, not the joined codes (the empty string). -/
theorem posString_empty_counterexample :
    sampleItem.possiblePositions = some [] ∧
    String.intercalate " / " [] = "" ∧
    (processItem sampleStaticData Category.Storage sampleItem).position =
      "Unknown" ∧
    (processItem sampleStaticData Category.Storage sampleItem).position ≠
      String.intercalate " / " [] := by
  refine ⟨rfl, rfl, rfl, ?_⟩
  decide

/-- C9 (amended): the normalized position equals the eligible position
codes joined with `" / "` whenever the list is present and the join is
non-empty; an absent list, or a join equal to the empty string (in
particular an empty list), yields the sentinel `"Unknown"`. -/
theorem processItem_position (sd : StaticData) (cat : Category)
    (item : ItemData) :
    (∀ ps, item.possiblePositions = some ps →
      String.intercalate " / " ps ≠ "" →
      (processItem sd cat item).position = String.intercalate " / " ps) ∧
    (item.possiblePositions = none →
      (processItem sd cat item).position = "Unknown") ∧
    (∀ ps, item.possiblePositions = some ps →
      String.intercalate " / " ps = "" →
      (processItem sd cat item).position = "Unknown") := by
  refine ⟨?_, ?_, ?_⟩
  · intro ps hps hne
    simp [processItem, posString, hps, hne]
  · intro h
    simp [processItem, posString, h]
  · intro ps hps hz
    simp [processItem, posString, hps, hz]

/-- Witness for C9: two eligible positions join to `"ST / CF"`. -/
theorem processItem_position_witness :
    (processItem sampleStaticData Category.Transfer sampleItemST).position =
      "ST / CF" := by
  have h := (processItem_position sampleStaticData Category.Transfer
    sampleItemST).1 ["ST", "CF"] rfl (by decide)
  exact h.trans (by decide)

/-! ### Lemmas: SBC cache behaviour -/

/-- A cache slot that misses at time `t` still misses at any later
time. -/
theorem cacheHit_mono (t t' : ℤ) (st : SBCCacheState)
    (h : cacheHit t st = false) (hle : t ≤ t') : cacheHit t' st = false := by
  cases st with
  | none => rfl
  | some p =>
    obtain ⟨d, ts⟩ := p
    simp only [cacheHit, decide_eq_false_iff_not, not_lt] at h ⊢
    omega

/-- On a cache miss the pipeline takes the compute path. -/
theorem runSBCPipeline_miss (t : ℤ) (st : SBCCacheState) (sets : List SBCSet)
    (votes : ℕ → Option SBCVote) (h : cacheHit t st = false) :
    runSBCPipeline t st sets votes = runSBCCompute t st sets votes := by
  cases st with
  | none => rfl
  | some p =>
    obtain ⟨d, ts⟩ := p
    simp only [cacheHit, decide_eq_false_iff_not] at h
    simp [runSBCPipeline, h]

/-- The compute path always issues the set fetch. -/
theorem runSBCCompute_fetches (t : ℤ) (st : SBCCacheState)
    (sets : List SBCSet) (votes : ℕ → Option SBCVote) :
    (runSBCCompute t st sets votes).2.2 = true := by
  by_cases h : filterSets sets = [] <;> simp [runSBCCompute, h]

/-- C10: when the completion filter drops every fetched set, the
pipeline returns an empty array and leaves the cache slot untouched — no
timestamped entry is stored — so any later call misses the cache and
issues the set fetch again. -/
theorem runSBC_empty_frame (t t' : ℤ) (st : SBCCacheState)
    (sets sets' : List SBCSet) (votes votes' : ℕ → Option SBCVote)
    (hmiss : cacheHit t st = false) (hempty : filterSets sets = [])
    (hle : t ≤ t') :
    runSBCPipeline t st sets votes = ([], st, true) ∧
    (runSBCPipeline t' st sets' votes').2.2 = true := by
  constructor
  · rw [runSBCPipeline_miss t st sets votes hmiss]
    simp [runSBCCompute, hempty]
  · rw [runSBCPipeline_miss t' st sets' votes' (cacheHit_mono t t' st hmiss hle)]
    exact runSBCCompute_fetches t' st sets' votes'

/-- Witness for C10: first call at `t = 0` on an empty cache with only
the fully-exhausted sample set returns `[]` without storing, and the
call at `t = 1` fetches again. -/
theorem runSBC_empty_frame_witness :
    runSBCPipeline 0 none [sampleExhaustedSet] noVotes = ([], none, true) ∧
    (runSBCPipeline 1 none [sampleExhaustedSet] noVotes).2.2 = true :=
  runSBC_empty_frame 0 1 none [sampleExhaustedSet] [sampleExhaustedSet]
    noVotes noVotes rfl (by decide) (by decide)

/-- C6 counterexample: a successful computation whose surviving set list
is empty returns *without* storing anything in the cache, and a second
call 1 ms later issues the set fetch again — against the claim that
every computation stores its result with the current timestamp and that
a second call within 5 minutes issues no fetch. -/
theorem sbcCache_skip_store_counterexample :
    runSBCPipeline 0 none [sampleExhaustedSet] noVotes = ([], none, true) ∧
    (runSBCPipeline 1 none [sampleExhaustedSet] noVotes).2.2 = true := by
  constructor <;> rfl

/-- C6 (amended): a computation that misses the cache and has a
*nonempty* surviving set list stores its result with the current
timestamp before returning, and any second call within 5 minutes of it
issues no network fetch and returns the stored array unchanged. -/
theorem runSBC_cache_window (t t' : ℤ) (st : SBCCacheState)
    (sets sets' : List SBCSet) (votes votes' : ℕ → Option SBCVote)
    (hmiss : cacheHit t st = false) (hne : filterSets sets ≠ [])
    (hwin : t' - t < SBC_CACHE_DURATION) :
    (runSBCPipeline t st sets votes).2.1 =
      some ((runSBCPipeline t st sets votes).1, t) ∧
    (runSBCPipeline t st sets votes).2.2 = true ∧
    runSBCPipeline t' (runSBCPipeline t st sets votes).2.1 sets' votes' =
      ((runSBCPipeline t st sets votes).1,
        (runSBCPipeline t st sets votes).2.1, false) := by
  have h1 : runSBCPipeline t st sets votes =
      (sortDescBy SBCWithDetails.rankScore ((filterSets sets).map (scoreSet votes)),
        some (sortDescBy SBCWithDetails.rankScore
          ((filterSets sets).map (scoreSet votes)), t),
        true) := by
    rw [runSBCPipeline_miss t st sets votes hmiss]
    simp [runSBCCompute, hne]
  rw [h1]
  refine ⟨rfl, rfl, ?_⟩
  simp [runSBCPipeline, hwin]

/-- Witness for C6: first call at `t = 0` on an empty cache with the
open sample set; the call at `t = 1` hits the cache and fetches
nothing. -/
theorem runSBC_cache_window_witness :
    (runSBCPipeline 1 (runSBCPipeline 0 none [sampleOpenSet] noVotes).2.1
      [sampleOpenSet] noVotes).2.2 = false := by
  have h := runSBC_cache_window 0 1 none [sampleOpenSet] [sampleOpenSet]
    noVotes noVotes rfl (by decide) (by decide)
  rw [h.2.2]

/-! ### Lemmas: ordered association lists and first-seen dedup -/

theorem mem_insertNew {α : Type} [DecidableEq α] (l : List α) (x y : α) :
    y ∈ insertNew l x ↔ y ∈ l ∨ y = x := by
  unfold insertNew
  split
  · rename_i h
    constructor
    · exact Or.inl
    · rintro (hy | rfl)
      · exact hy
      · exact h
  · simp

theorem insertNew_nodup {α : Type} [DecidableEq α] (l : List α) (x : α)
    (h : l.Nodup) : (insertNew l x).Nodup := by
  unfold insertNew
  split
  · exact h
  · rename_i hx
    exact h.append (List.nodup_singleton x) (by simpa using hx)

theorem foldl_insertNew_nodup {α : Type} [DecidableEq α] (l : List α) :
    ∀ acc : List α, acc.Nodup → (l.foldl insertNew acc).Nodup := by
  induction l with
  | nil => intro acc h; exact h
  | cons x xs ih =>
    intro acc h
    exact ih (insertNew acc x) (insertNew_nodup acc x h)

theorem mem_foldl_insertNew {α : Type} [DecidableEq α] (l : List α) (y : α) :
    ∀ acc : List α, y ∈ l.foldl insertNew acc ↔ y ∈ acc ∨ y ∈ l := by
  induction l with
  | nil => intro acc; simp
  | cons x xs ih =>
    intro acc
    rw [List.foldl_cons, ih (insertNew acc x), mem_insertNew]
    simp only [List.mem_cons]
    tauto

theorem firstSeen_nodup {α : Type} [DecidableEq α] (l : List α) :
    (firstSeen l).Nodup :=
  foldl_insertNew_nodup l [] List.nodup_nil

theorem mem_firstSeen {α : Type} [DecidableEq α] (l : List α) (y : α) :
    y ∈ firstSeen l ↔ y ∈ l := by
  rw [firstSeen, mem_foldl_insertNew]
  simp

theorem findVal_eq_none_iff {α β : Type} [DecidableEq α] (k : α)
    (m : List (α × β)) : findVal k m = none ↔ k ∉ m.map Prod.fst := by
  induction m with
  | nil => simp [findVal]
  | cons kv rest ih =>
    simp only [findVal, List.map_cons, List.mem_cons]
    by_cases h : kv.1 = k
    · simp [h]
    · simp only [h, if_false, ih]
      have : ¬ k = kv.1 := fun hk => h hk.symm
      tauto

theorem findVal_updateVal_self {α β : Type} [DecidableEq α] (k : α)
    (f : β → β) (m : List (α × β)) :
    findVal k (updateVal k f m) = (findVal k m).map f := by
  induction m with
  | nil => rfl
  | cons kv rest ih =>
    simp only [updateVal, List.map_cons, findVal] at *
    by_cases h : kv.1 = k
    · simp [h]
    · simp [h, ih]

theorem findVal_updateVal_ne {α β : Type} [DecidableEq α] (k k' : α)
    (f : β → β) (m : List (α × β)) (h : k ≠ k') :
    findVal k (updateVal k' f m) = findVal k m := by
  induction m with
  | nil => rfl
  | cons kv rest ih =>
    simp only [updateVal, List.map_cons, findVal] at *
    by_cases hk : kv.1 = k'
    · have hknotk : ¬ kv.1 = k := by
        rw [hk]
        exact fun hkk => h hkk.symm
      have hne : ¬ k' = k := fun hkk => h hkk.symm
      simp [hk, hknotk, hne, ih]
    · by_cases hk2 : kv.1 = k
      · simp [hk, hk2, h, ih]
      · simp [hk, hk2, ih]

theorem findVal_append_single {α β : Type} [DecidableEq α] (k k' : α)
    (b : β) (m : List (α × β)) :
    findVal k (m ++ [(k', b)]) =
      match findVal k m with
      | some x => some x
      | none => if k' = k then some b else none := by
  induction m with
  | nil => simp [findVal]
  | cons kv rest ih =>
    simp only [List.cons_append, findVal]
    by_cases h : kv.1 = k
    · simp [h]
    · simp [h, ih]

theorem updateVal_map_fst {α β : Type} [DecidableEq α] (k : α) (f : β → β)
    (m : List (α × β)) :
    (updateVal k f m).map Prod.fst = m.map Prod.fst := by
  unfold updateVal
  rw [List.map_map]
  exact List.map_congr_left fun kv _ => by
    by_cases h : kv.1 = k <;> simp [h]

theorem findVal_of_mem_nodup {α β : Type} [DecidableEq α]
    (m : List (α × β)) (h : (m.map Prod.fst).Nodup) (kv : α × β)
    (hkv : kv ∈ m) : findVal kv.1 m = some kv.2 := by
  induction m with
  | nil => cases hkv
  | cons kv0 rest ih =>
    rcases List.mem_cons.mp hkv with rfl | hmem
    · simp [findVal]
    · have hne : ¬ kv0.1 = kv.1 := by
        intro hk
        have : kv.1 ∈ rest.map Prod.fst :=
          List.mem_map.mpr ⟨kv, hmem, rfl⟩
        rw [List.map_cons, List.nodup_cons] at h
        exact h.1 (hk ▸ this)
      simp only [findVal, hne, if_false]
      exact ih (by rw [List.map_cons, List.nodup_cons] at h; exact h.2) hmem

/-! ### Lemmas: aggregation -/

theorem accumulate_cons (a : AggregatedPlayer) (q : ProcessedPlayer)
    (qs : List ProcessedPlayer) :
    accumulate a (q :: qs) = accumulate (bumpAgg q.type a) qs := rfl

theorem accumulate_copies (qs : List ProcessedPlayer) :
    ∀ a : AggregatedPlayer, (accumulate a qs).copies = a.copies + qs.length := by
  induction qs with
  | nil => intro a; rfl
  | cons q qs ih =>
    intro a
    rw [accumulate_cons, ih]
    simp only [bumpAgg, List.length_cons]
    omega

theorem accumulate_types (qs : List ProcessedPlayer) :
    ∀ a : AggregatedPlayer,
      (accumulate a qs).types = (qs.map (fun q => q.type)).foldl insertNew a.types := by
  induction qs with
  | nil => intro a; rfl
  | cons q qs ih =>
    intro a
    rw [accumulate_cons, ih]
    rfl

theorem accumulate_key (qs : List ProcessedPlayer) :
    ∀ a : AggregatedPlayer, aggKeyA (accumulate a qs) = aggKeyA a := by
  induction qs with
  | nil => intro a; rfl
  | cons q qs ih =>
    intro a
    rw [accumulate_cons, ih]
    rfl

theorem initAgg_key (p : ProcessedPlayer) : aggKeyA (initAgg p) = aggKey p := rfl

theorem aggStep_map_fst (m : List ((ℕ × ℤ) × AggregatedPlayer))
    (p : ProcessedPlayer) :
    (aggStep m p).map Prod.fst = insertNew (m.map Prod.fst) (aggKey p) := by
  unfold aggStep insertNew
  cases hf : findVal (aggKey p) m with
  | some a =>
    have hmem : aggKey p ∈ m.map Prod.fst := by
      by_contra hc
      rw [← findVal_eq_none_iff (β := AggregatedPlayer)] at hc
      rw [hc] at hf
      cases hf
    rw [if_pos hmem, updateVal_map_fst]
  | none =>
    have hnm : aggKey p ∉ m.map Prod.fst := (findVal_eq_none_iff _ m).mp hf
    rw [if_neg hnm]
    simp

theorem foldl_aggStep_map_fst (ps : List ProcessedPlayer) :
    ∀ m, ((ps.foldl aggStep m).map Prod.fst) =
      (ps.map aggKey).foldl insertNew (m.map Prod.fst) := by
  induction ps with
  | nil => intro m; rfl
  | cons p ps ih =>
    intro m
    rw [List.foldl_cons, List.map_cons, List.foldl_cons, ih, aggStep_map_fst]

theorem aggStep_wf (m : List ((ℕ × ℤ) × AggregatedPlayer))
    (p : ProcessedPlayer) (h : ∀ kv ∈ m, aggKeyA kv.2 = kv.1) :
    ∀ kv ∈ aggStep m p, aggKeyA kv.2 = kv.1 := by
  unfold aggStep
  cases hf : findVal (aggKey p) m with
  | some a =>
    intro kv hkv
    simp only [updateVal, List.mem_map] at hkv
    obtain ⟨kv0, hkv0, heq⟩ := hkv
    by_cases hk : kv0.1 = aggKey p
    · rw [if_pos hk] at heq
      rw [← heq]
      show aggKeyA (bumpAgg p.type kv0.2) = kv0.1
      have : aggKeyA (bumpAgg p.type kv0.2) = aggKeyA kv0.2 := rfl
      rw [this]
      exact h kv0 hkv0
    · rw [if_neg hk] at heq
      rw [← heq]
      exact h kv0 hkv0
  | none =>
    intro kv hkv
    rcases List.mem_append.mp hkv with hm | hs
    · exact h kv hm
    · rcases List.mem_singleton.mp hs with rfl
      exact initAgg_key p

theorem foldl_aggStep_wf (ps : List ProcessedPlayer) :
    ∀ m, (∀ kv ∈ m, aggKeyA kv.2 = kv.1) →
      ∀ kv ∈ ps.foldl aggStep m, aggKeyA kv.2 = kv.1 := by
  induction ps with
  | nil => intro m h; exact h
  | cons p ps ih =>
    intro m h
    exact ih (aggStep m p) (aggStep_wf m p h)

/-- The heart of the aggregation proof: what the map holds under key `k`
after folding `ps` into it. -/
theorem findVal_foldl_aggStep (k : ℕ × ℤ) (ps : List ProcessedPlayer) :
    ∀ m, findVal k (ps.foldl aggStep m) =
      match findVal k m with
      | some a => some (accumulate a (ps.filter fun p => decide (aggKey p = k)))
      | none =>
        match ps.filter (fun p => decide (aggKey p = k)) with
        | [] => none
        | q :: qs => some (accumulate (initAgg q) qs) := by
  induction ps with
  | nil =>
    intro m
    cases hf : findVal k m <;> simp [accumulate, hf]
  | cons p ps ih =>
    intro m
    rw [List.foldl_cons, List.filter_cons, ih (aggStep m p)]
    by_cases hk : aggKey p = k
    · subst hk
      rw [if_pos (by simp)]
      cases hf : findVal (aggKey p) m with
      | some a =>
        have hstep : aggStep m p = updateVal (aggKey p) (bumpAgg p.type) m := by
          unfold aggStep
          rw [hf]
        rw [hstep, findVal_updateVal_self, hf]
        simp [accumulate_cons]
      | none =>
        have hstep : aggStep m p = m ++ [(aggKey p, initAgg p)] := by
          unfold aggStep
          rw [hf]
        rw [hstep, findVal_append_single, hf]
        simp
    · rw [if_neg (by simpa using hk)]
      have hkne : k ≠ aggKey p := fun hkk => hk hkk.symm
      have hfind : findVal k (aggStep m p) = findVal k m := by
        unfold aggStep
        cases hf : findVal (aggKey p) m with
        | some a => exact findVal_updateVal_ne k (aggKey p) (bumpAgg p.type) m hkne
        | none =>
          rw [findVal_append_single]
          cases hfk : findVal k m with
          | none => simp [hk]
          | some b => simp
      rw [hfind]

/-- A duplicate-free list of source categories has at most 3 entries. -/
theorem nodup_category_length_le (l : List Category) (h : l.Nodup) :
    l.length ≤ 3 := by
  have hc := List.Nodup.length_le_card h
  have h3 : Fintype.card Category = 3 := by decide
  omega

/-- C1: aggregation produces exactly one entry per distinct
(asset id, rating) key, in first-seen key order; each entry's `copies`
is the number of input records with its key, and its `types` list is the
deduplicated, first-appearance-ordered list of the source categories of
those records (hence of length at most 3). -/
theorem aggregatedPlayers_spec (players : List ProcessedPlayer) :
    ((aggregatedPlayers players).map aggKeyA).Nodup ∧
    (aggregatedPlayers players).map aggKeyA = firstSeen (players.map aggKey) ∧
    (∀ k : ℕ × ℤ, (∃ a ∈ aggregatedPlayers players, aggKeyA a = k) ↔
      k ∈ players.map aggKey) ∧
    ∀ a ∈ aggregatedPlayers players,
      a.copies = (players.filter fun p => decide (aggKey p = aggKeyA a)).length ∧
      a.types = firstSeen ((players.filter fun p =>
        decide (aggKey p = aggKeyA a)).map (fun p => p.type)) ∧
      a.types.length ≤ 3 := by
  have hwf : ∀ kv ∈ players.foldl aggStep [], aggKeyA kv.2 = kv.1 :=
    foldl_aggStep_wf players [] (by intro kv h; cases h)
  have hkeys : (players.foldl aggStep []).map Prod.fst =
      firstSeen (players.map aggKey) := by
    simpa [firstSeen] using foldl_aggStep_map_fst players []
  have hmapA : (aggregatedPlayers players).map aggKeyA =
      (players.foldl aggStep []).map Prod.fst := by
    unfold aggregatedPlayers
    rw [List.map_map]
    exact List.map_congr_left fun kv hkv => hwf kv hkv
  have hEq : (aggregatedPlayers players).map aggKeyA =
      firstSeen (players.map aggKey) := hmapA.trans hkeys
  have hnodup : ((aggregatedPlayers players).map aggKeyA).Nodup := by
    rw [hEq]
    exact firstSeen_nodup _
  refine ⟨hnodup, hEq, ?_, ?_⟩
  · intro k
    rw [← List.mem_map (f := aggKeyA), hEq, mem_firstSeen]
  · intro a ha
    obtain ⟨kv, hkv, hsnd⟩ :=
      List.mem_map.mp (show a ∈ (players.foldl aggStep []).map Prod.snd from ha)
    have hkey : aggKeyA a = kv.1 := by
      rw [← hsnd]
      exact hwf kv hkv
    have hnodupkeys : ((players.foldl aggStep []).map Prod.fst).Nodup := by
      rw [hkeys]
      exact firstSeen_nodup _
    have hfv : findVal kv.1 (players.foldl aggStep []) = some kv.2 :=
      findVal_of_mem_nodup _ hnodupkeys kv hkv
    have hchar := findVal_foldl_aggStep kv.1 players []
    rw [hfv] at hchar
    cases hfil : players.filter (fun p => decide (aggKey p = kv.1)) with
    | nil =>
      rw [hfil] at hchar
      cases hchar
    | cons q qs =>
      rw [hfil] at hchar
      have ha2 : a = accumulate (initAgg q) qs := by
        rw [← hsnd]
        exact Option.some.inj hchar
      have hsingle : insertNew ([] : List Category) q.type = [q.type] := by
        simp [insertNew]
      refine ⟨?_, ?_, ?_⟩
      · rw [hkey, hfil, ha2, accumulate_copies]
        simp only [initAgg, List.length_cons]
        omega
      · rw [hkey, hfil, ha2, accumulate_types]
        show (qs.map fun q => q.type).foldl insertNew (initAgg q).types =
          firstSeen ((q :: qs).map fun p => p.type)
        rw [List.map_cons]
        show _ = (qs.map fun p => p.type).foldl insertNew
          (insertNew ([] : List Category) q.type)
        rw [hsingle]
        rfl
      · rw [ha2, accumulate_types]
        have htypes : (initAgg q).types = [q.type] := rfl
        rw [htypes]
        refine nodup_category_length_le _ ?_
        exact foldl_insertNew_nodup _ [q.type] (List.nodup_singleton _)

/-! ### Lemmas: filter engine -/

/-- `List.contains` is `false` exactly on non-members. -/
theorem contains_eq_false_iff {α : Type} [BEq α] [LawfulBEq α] (l : List α)
    (x : α) : l.contains x = false ↔ x ∉ l := by
  constructor
  · intro h hc
    have h2 : l.contains x = true := List.elem_iff.mpr hc
    rw [h2] at h
    exact Bool.noConfusion h
  · intro h
    cases hc : l.contains x
    · rfl
    · exact absurd (List.elem_iff.mp hc) h

/-- The early-return chain of the `filteredPlayers` predicate is exactly
the spec's conjunction. -/
theorem passes_iff (f : FilterState) (a : AggregatedPlayer) :
    passes f a = true ↔ passesSpec f a := by
  unfold passes passesSpec
  split_ifs with h1 h2 h3 h4 h5 h6 h7
  · simp only [Bool.false_eq_true, false_iff]
    intro hspec
    simp only [Bool.or_eq_true, decide_eq_true_eq] at h1
    have h := hspec.1
    omega
  · simp only [Bool.false_eq_true, false_iff]
    intro hspec
    simp only [Bool.and_eq_true, decide_eq_true_eq, Bool.not_eq_true',
      List.any_eq_false, List.elem_iff, List.length_pos, ne_eq] at h2
    rcases hspec.2.1 with hemp | ⟨pos, hp, hin⟩
    · exact h2.1 hemp
    · exact h2.2 pos hp hin
  · simp only [Bool.false_eq_true, false_iff]
    intro hspec
    simp only [Bool.and_eq_true, decide_eq_true_eq, Bool.not_eq_true',
      contains_eq_false_iff, List.length_pos, ne_eq] at h3
    rcases hspec.2.2.1 with hemp | hm
    · exact h3.1 hemp
    · exact h3.2 hm
  · simp only [Bool.false_eq_true, false_iff]
    intro hspec
    simp only [Bool.and_eq_true, decide_eq_true_eq, Bool.not_eq_true',
      contains_eq_false_iff, List.length_pos, ne_eq] at h4
    rcases hspec.2.2.2.1 with hemp | hm
    · exact h4.1 hemp
    · exact h4.2 hm
  · simp only [Bool.false_eq_true, false_iff]
    intro hspec
    simp only [Bool.and_eq_true, decide_eq_true_eq, Bool.not_eq_true',
      contains_eq_false_iff, List.length_pos, ne_eq] at h5
    rcases hspec.2.2.2.2.1 with hemp | hm
    · exact h5.1 hemp
    · exact h5.2 hm
  · simp only [Bool.false_eq_true, false_iff]
    intro hspec
    simp only [Bool.and_eq_true, decide_eq_true_eq, Bool.not_eq_true',
      List.any_eq_false, List.elem_iff, List.length_pos, ne_eq] at h6
    rcases hspec.2.2.2.2.2.1 with hemp | ⟨t, ht, hin⟩
    · exact h6.1 hemp
    · exact h6.2 t ht hin
  · simp only [Bool.false_eq_true, false_iff]
    intro hspec
    simp only [Bool.and_eq_true, decide_eq_true_eq] at h7
    have := hspec.2.2.2.2.2.2 h7.1
    omega
  · refine iff_of_true rfl ?_
    simp only [Bool.or_eq_true, decide_eq_true_eq, not_or, not_lt] at h1
    simp only [Bool.and_eq_true, decide_eq_true_eq, Bool.not_eq_true',
      Bool.not_eq_false, List.any_eq_true, List.elem_iff, List.length_pos,
      ne_eq, not_and, not_not] at h2 h3 h4 h5 h6 h7
    refine ⟨⟨h1.1, h1.2⟩, ?_, ?_, ?_, ?_, ?_, ?_⟩
    · by_cases hemp : f.positions = []
      · exact Or.inl hemp
      · exact Or.inr (h2 hemp)
    · by_cases hemp : f.nations = []
      · exact Or.inl hemp
      · exact Or.inr (by simpa using h3 hemp)
    · by_cases hemp : f.leagues = []
      · exact Or.inl hemp
      · exact Or.inr (by simpa using h4 hemp)
    · by_cases hemp : f.teams = []
      · exact Or.inl hemp
      · exact Or.inr (by simpa using h5 hemp)
    · by_cases hemp : f.types = []
      · exact Or.inl hemp
      · exact Or.inr (h6 hemp)
    · intro hm
      have := h7 hm
      omega

theorem insertDescBy_perm {α β : Type} [LinearOrder β] (key : α → β) (a : α)
    (l : List α) : (insertDescBy key a l).Perm (a :: l) := by
  induction l with
  | nil => exact List.Perm.refl _
  | cons b bs ih =>
    unfold insertDescBy
    split
    · exact List.Perm.refl _
    · exact (ih.cons b).trans (List.Perm.swap a b bs)

theorem sortDescBy_perm {α β : Type} [LinearOrder β] (key : α → β)
    (l : List α) : (sortDescBy key l).Perm l := by
  induction l with
  | nil => exact List.Perm.refl _
  | cons x xs ih =>
    exact (insertDescBy_perm key x (sortDescBy key xs)).trans (ih.cons x)

theorem mem_insertDescBy {α β : Type} [LinearOrder β] (key : α → β)
    (a c : α) (l : List α) : c ∈ insertDescBy key a l ↔ c = a ∨ c ∈ l := by
  rw [(insertDescBy_perm key a l).mem_iff, List.mem_cons]

theorem insertDescBy_pairwise {α β : Type} [LinearOrder β] (key : α → β)
    (a : α) (l : List α) (h : l.Pairwise fun x y => key y ≤ key x) :
    (insertDescBy key a l).Pairwise fun x y => key y ≤ key x := by
  induction l with
  | nil => simp [insertDescBy]
  | cons b bs ih =>
    rw [List.pairwise_cons] at h
    unfold insertDescBy
    split
    · rename_i hba
      rw [List.pairwise_cons]
      refine ⟨?_, List.pairwise_cons.mpr h⟩
      intro c hc
      rcases List.mem_cons.mp hc with rfl | hcb
      · exact hba
      · exact le_trans (h.1 c hcb) hba
    · rename_i hba
      rw [List.pairwise_cons]
      refine ⟨?_, ih h.2⟩
      intro c hc
      rcases (mem_insertDescBy key a c bs).mp hc with rfl | hcb
      · exact le_of_lt (not_le.mp hba)
      · exact h.1 c hcb

theorem sortDescBy_pairwise {α β : Type} [LinearOrder β] (key : α → β)
    (l : List α) : (sortDescBy key l).Pairwise fun x y => key y ≤ key x := by
  induction l with
  | nil => simp [sortDescBy]
  | cons x xs ih => exact insertDescBy_pairwise key x (sortDescBy key xs) ih

/-- Inserting into the stable descending sort never reorders elements of
equal key: the slice at each key value gains the new element at its
front exactly when the key matches. -/
theorem filter_insertDescBy {α β : Type} [LinearOrder β] (key : α → β)
    (a : α) (l : List α) (r : β) :
    (insertDescBy key a l).filter (fun b => decide (key b = r)) =
      if key a = r then a :: l.filter (fun b => decide (key b = r))
      else l.filter (fun b => decide (key b = r)) := by
  induction l with
  | nil => by_cases h : key a = r <;> simp [insertDescBy, h]
  | cons b bs ih =>
    unfold insertDescBy
    split
    · rename_i hba
      by_cases har : key a = r <;> simp [List.filter_cons, har]
    · rename_i hba
      rw [List.filter_cons, ih]
      by_cases har : key a = r
      · have hbr : ¬ key b = r := by
          intro hb
          exact hba (le_of_eq (hb.trans har.symm))
        simp [har, hbr, List.filter_cons]
      · by_cases hbr : key b = r <;> simp [har, hbr, List.filter_cons]

/-- The stable descending sort preserves each equal-key slice of the
input: ties retain their prior relative order. -/
theorem filter_sortDescBy {α β : Type} [LinearOrder β] (key : α → β)
    (l : List α) (r : β) :
    (sortDescBy key l).filter (fun b => decide (key b = r)) =
      l.filter (fun b => decide (key b = r)) := by
  induction l with
  | nil => rfl
  | cons x xs ih =>
    show (insertDescBy key x (sortDescBy key xs)).filter _ = _
    rw [filter_insertDescBy, List.filter_cons]
    by_cases h : key x = r <;> simp [h, ih]

/-- C3: the filter keeps exactly the entries passing the spec's
conjunction; the result is a permutation of the kept entries, sorted
descending by rating with equal-rating slices in input order (stable
ties); with every list criterion empty, no multiple-copies flag and a
rating range covering the list, the result is just the input re-sorted
descending by rating.  The embedding is pure, so the input list is never
mutated. -/
theorem filteredPlayers_spec (players : List AggregatedPlayer)
    (f : FilterState) :
    (filteredPlayers players f).Perm (players.filter (passes f)) ∧
    ((filteredPlayers players f).Pairwise fun x y => y.rating ≤ x.rating) ∧
    (∀ r : ℤ, (filteredPlayers players f).filter
        (fun b => decide (b.rating = r)) =
      (players.filter (passes f)).filter (fun b => decide (b.rating = r))) ∧
    (∀ a, passes f a = true ↔ passesSpec f a) ∧
    ((f.positions = [] ∧ f.nations = [] ∧ f.leagues = [] ∧ f.teams = [] ∧
      f.types = [] ∧ f.multipleCopiesOnly = false ∧
      ∀ a ∈ players, f.ratingRange.1 ≤ a.rating ∧ a.rating ≤ f.ratingRange.2) →
      players.filter (passes f) = players ∧
      filteredPlayers players f = sortDescBy (fun x => x.rating) players) := by
  refine ⟨sortDescBy_perm _ _, sortDescBy_pairwise _ _,
    fun r => filter_sortDescBy _ _ r, fun a => passes_iff f a, ?_⟩
  rintro ⟨hp, hn, hl, ht, hty, hm, hr⟩
  have hfil : players.filter (passes f) = players := by
    apply List.filter_eq_self.mpr
    intro a ha
    rw [passes_iff]
    refine ⟨hr a ha, Or.inl hp, Or.inl hn, Or.inl hl, Or.inl ht, Or.inl hty, ?_⟩
    intro hmm
    rw [hm] at hmm
    cases hmm
  refine ⟨hfil, ?_⟩
  unfold filteredPlayers
  rw [hfil]

/-- Witness for C3: with empty criteria the two sample entries are
re-sorted descending by rating and nothing else. -/
theorem filteredPlayers_spec_witness :
    filteredPlayers [sampleAggregatedLow, sampleAggregated] emptyFilters =
      sortDescBy (fun x => x.rating) [sampleAggregatedLow, sampleAggregated] ∧
    filteredPlayers [sampleAggregatedLow, sampleAggregated] emptyFilters =
      [sampleAggregated, sampleAggregatedLow] := by
  have h := (filteredPlayers_spec [sampleAggregatedLow, sampleAggregated]
      emptyFilters).2.2.2.2 ?_
  · exact ⟨h.2, h.2.trans (by decide)⟩
  · refine ⟨rfl, rfl, rfl, rfl, rfl, rfl, ?_⟩
    intro a ha
    rcases List.mem_cons.mp ha with rfl | ha2
    · constructor <;> decide
    · rcases List.mem_cons.mp ha2 with rfl | ha3
      · constructor <;> decide
      · cases ha3

/-- Witness for C1: aggregating the two sample copies gives one entry
whose copy count is the number of records with its key. -/
theorem aggregatedPlayers_spec_witness :
    sampleAggregated.copies =
      ([samplePlayerT, samplePlayerS].filter fun p =>
        decide (aggKey p = aggKeyA sampleAggregated)).length := by
  have h := (aggregatedPlayers_spec [samplePlayerT, samplePlayerS]).2.2.2
    sampleAggregated (by decide)
  exact h.1

end FCOptimizer
